import Mathlib

/-!
Verification development for the IOC extraction utility `utils/ioc_tools.py`.

The program scans free-form text for indicators of compromise (IPv4
addresses, domains, hashes, URLs).  Text is a `List Char`.  The four
compiled regular expressions of the source are embedded as deterministic
matching functions: for each pattern the backtracking behaviour of the
Python `re` engine was analysed and is reproduced exactly (the character
classes `\d`, `\w`, `\s` and the `IGNORECASE` flag are modelled at the
ASCII level, which is where all behaviour relevant to the claims lives).
`re.finditer` is modelled by `findIter`: scan left to right, attempt a
match at every position, emit non-overlapping matches and resume at the
end of each match.
-/

/-! ## Character classes (ASCII model of Python's `\d`, `\w`, `\s`, hex, letters) -/

/-- `\d` : a decimal digit `0`-`9`. -/
def isDigitC (c : Char) : Bool := 48 ≤ c.toNat && c.toNat ≤ 57

/-- An ASCII letter (both cases); with `IGNORECASE`, the class `[a-z]`. -/
def isAlphaC (c : Char) : Bool :=
  (97 ≤ c.toNat && c.toNat ≤ 122) || (65 ≤ c.toNat && c.toNat ≤ 90)

/-- With `IGNORECASE`, the class `[a-z0-9-]` of the domain pattern
(letter, digit, or hyphen). -/
def isLDHC (c : Char) : Bool := isAlphaC c || isDigitC c || c.toNat = 45

/-- With `IGNORECASE`, the class `[a-f0-9]` of the hash pattern. -/
def isHexC (c : Char) : Bool :=
  isDigitC c || (97 ≤ c.toNat && c.toNat ≤ 102) || (65 ≤ c.toNat && c.toNat ≤ 70)

/-- `\w` : a word character (letter, digit or underscore). -/
def wordC (c : Char) : Bool := isAlphaC c || isDigitC c || c.toNat = 95

/-- `\s` : ASCII whitespace (space, tab, newline, carriage return,
vertical tab, form feed). -/
def spaceC (c : Char) : Bool :=
  c.toNat = 32 || c.toNat = 9 || c.toNat = 10 || c.toNat = 13 ||
    c.toNat = 11 || c.toNat = 12

/-- Python `str.lower()` restricted to ASCII: map `A`-`Z` to `a`-`z`. -/
def asciiLower (c : Char) : Char :=
  if 65 ≤ c.toNat && c.toNat ≤ 90 then Char.ofNat (c.toNat + 32) else c

/-- A word-boundary / lookbehind context check: `none` is the start of the
text.  `okBound o = true` iff the context character is absent or not a
word character; this decides `\b` at a position whose first matched
character is a word character. -/
def okBound : Option Char → Bool
  | none => true
  | some c => !wordC c

/-! ## Python `str.split(".")`, `int()`, and `_validate_ip` -/

/-- Python `s.split(".")`: split on every literal dot; always returns at
least one (possibly empty) part. -/
def splitOnDot : List Char → List (List Char)
  | [] => [[]]
  | '.' :: r => [] :: splitOnDot r
  | c :: r =>
    match splitOnDot r with
    | p :: ps => (c :: p) :: ps
    | [] => [[c]]

/-- The numeric value of a non-empty all-digit string, else `none`. -/
def digitsVal (ds : List Char) : Option Nat :=
  if ds ≠ [] && ds.all isDigitC then
    some (ds.foldl (fun a c => a * 10 + (c.toNat - 48)) 0)
  else none

/-- Python `int()` on a string: strip surrounding whitespace, optional
sign, then decimal digits.  (ASCII model; underscore digit grouping is
not modelled — no candidate produced by the extractor contains one.) -/
def pyInt (s : List Char) : Option Int :=
  let t := ((s.dropWhile spaceC).reverse.dropWhile spaceC).reverse
  match t with
  | '+' :: ds => (digitsVal ds).map Int.ofNat
  | '-' :: ds => (digitsVal ds).map (fun n => -(Int.ofNat n))
  | ds => (digitsVal ds).map Int.ofNat

/-- `_validate_ip`: split on `.`, require exactly four parts, each parsing
as an integer in `[0, 255]`. -/
def validate_ip (ip : List Char) : Bool :=
  if (splitOnDot ip).length ≠ 4 then false
  else (splitOnDot ip).all fun part =>
    match pyInt part with
    | none => false
    | some num => !(num < 0 || 255 < num)

/-- `_IP_PATTERN.fullmatch`: the whole string is
`\d{1,3}(\.\d{1,3}){3}` (the surrounding `\b` are vacuous on a full
match of this shape). -/
def ipFullmatch (v : List Char) : Bool :=
  match splitOnDot v with
  | [a, b, c, d] =>
    [a, b, c, d].all fun p => p ≠ [] && p.length ≤ 3 && p.all isDigitC
  | _ => false

/-! ## The IP matcher: `\b(?:\d{1,3}\.){3}\d{1,3}\b` at one position

`\d{1,3}` greedily takes at most three digits; since a digit is never a
dot, backtracking to fewer digits can never turn the following character
into the required `.` (resp. satisfy the trailing `\b`), so the match is
deterministic: each of the first three octets is a full digit run of
length 1–3 followed by `.`, the last is a full digit run of length 1–3
followed by a non-word character or the end of the text. -/

/-- One `\d{1,3}\.` group: a maximal digit run of length 1–3 followed by
a literal dot; returns (consumed, rest). -/
def octDot (s : List Char) : Option (List Char × List Char) :=
  match s.dropWhile isDigitC with
  | '.' :: r' =>
    if (s.takeWhile isDigitC).length = 0 || 3 < (s.takeWhile isDigitC).length then none
    else some (s.takeWhile isDigitC ++ ['.'], r')
  | _ => none

/-- The final `\d{1,3}\b`: a maximal digit run of length 1–3 followed by
a non-word character or the end. -/
def octEnd (s : List Char) : Option (List Char × List Char) :=
  if (s.takeWhile isDigitC).length = 0 || 3 < (s.takeWhile isDigitC).length
      || !okBound (s.dropWhile isDigitC).head? then none
  else some (s.takeWhile isDigitC, s.dropWhile isDigitC)

/-- `_IP_PATTERN` attempted at one position (`prev` = preceding
character, for the leading `\b`). -/
def ipRun (prev : Option Char) (s : List Char) : Option (List Char × List Char) :=
  if okBound prev then
    match octDot s with
    | some (a, s1) =>
      match octDot s1 with
      | some (b, s2) =>
        match octDot s2 with
        | some (c, s3) =>
          match octEnd s3 with
          | some (d, s4) => some (a ++ b ++ c ++ d, s4)
          | none => none
        | none => none
      | none => none
    | none => none
  else none

/-! ## The hash matcher: `\b(?:[a-f0-9]{32}|[a-f0-9]{40}|[a-f0-9]{64})\b`

The alternation tries 32, then 40, then 64 hex characters, each followed
by `\b`.  If the maximal hex run at the position is longer than the
alternative's width, the next character after the candidate is a hex
(hence word) character and the trailing `\b` fails, so exactly the runs
whose full length is 32, 40 or 64 (and which sit in non-word context)
match. -/

/-- `_HASH_PATTERN` attempted at one position. -/
def hashRun (prev : Option Char) (s : List Char) : Option (List Char × List Char) :=
  if okBound prev then
    if ((s.takeWhile isHexC).length = 32 || (s.takeWhile isHexC).length = 40
          || (s.takeWhile isHexC).length = 64)
        && okBound (s.dropWhile isHexC).head? then
      some (s.takeWhile isHexC, s.dropWhile isHexC)
    else none
  else none

/-! ## The domain matcher:
`(?<![a-z0-9-])(?:[a-z0-9-]+\.)+[a-z]{2,}(?![a-z0-9-])`, IGNORECASE

Inside one `[a-z0-9-]+\.` iteration the class never matches `.`, so each
iteration deterministically consumes a maximal LDH run followed by a dot.
The only real backtracking dimension is the number of iterations: the
greedy `+` prefers more iterations, falling back to fewer (down to one)
before matching the TLD `[a-z]{2,}` and the negative lookahead. -/

/-- One `[a-z0-9-]+\.` iteration: a maximal non-empty LDH run followed by
a literal dot. -/
def labelDot (s : List Char) : Option (List Char × List Char) :=
  match s.dropWhile isLDHC with
  | '.' :: r' =>
    if s.takeWhile isLDHC = [] then none
    else some (s.takeWhile isLDHC ++ ['.'], r')
  | _ => none

/-- The negative lookbehind / lookahead `(?<![a-z0-9-])` / `(?![a-z0-9-])`:
the context character is absent or not letter/digit/hyphen. -/
def okLook : Option Char → Bool
  | none => true
  | some c => !isLDHC c

/-- The tail `[a-z]{2,}(?![a-z0-9-])`: a maximal letter run of length at
least two whose following character passes the lookahead. -/
def tldCheck (s : List Char) : Option (List Char × List Char) :=
  if 2 ≤ (s.takeWhile isAlphaC).length && okLook (s.dropWhile isAlphaC).head? then
    some (s.takeWhile isAlphaC, s.dropWhile isAlphaC)
  else none

/-- `(?:[a-z0-9-]+\.)*[a-z]{2,}(?![a-z0-9-])` with the greedy preference
for more label iterations.  `fuel` bounds the recursion depth; every
iteration consumes at least two characters, so `fuel = s.length` is
always sufficient. -/
def domainAfterOneF : Nat → List Char → Option (List Char × List Char)
  | 0, s => tldCheck s
  | fuel + 1, s =>
    match labelDot s with
    | some (seg, r) =>
      match domainAfterOneF fuel r with
      | some (v, r') => some (seg ++ v, r')
      | none => tldCheck s
    | none => tldCheck s

/-- `_DOMAIN_PATTERN` attempted at one position (`prev` = preceding
character, for the negative lookbehind). -/
def domainRun (prev : Option Char) (s : List Char) : Option (List Char × List Char) :=
  -- the lookbehind `(?<![a-z0-9-])` tests the same class as the lookahead
  if okLook prev then
    match labelDot s with
    | some (seg, r) =>
      match domainAfterOneF r.length r with
      | some (v, r') => some (seg ++ v, r')
      | none => none
    | none => none
  else none

/-! ## The URL matcher: `https?://[^\s/$.?#].[^\s]*`, IGNORECASE

`s?` is greedy but `://` can never start with `s`, so the scheme parse is
deterministic.  After the scheme: one character not in
`{whitespace, /, $, ., ?, #}`, then one arbitrary character other than
newline (the regex `.`), then a greedy run of non-whitespace. -/

/-- Case-insensitive literal match: `pat` (given in lower case) against
the head of `s`; returns the consumed original characters and the rest. -/
def stripCI : List Char → List Char → Option (List Char × List Char)
  | [], s => some ([], s)
  | _ :: _, [] => none
  | p :: ps, c :: cs =>
    if asciiLower c = p then
      match stripCI ps cs with
      | some (u, r) => some (c :: u, r)
      | none => none
    else none

/-- The scheme `https?://` (case-insensitive): the greedy `s?` is
deterministic because `://` can never begin with an `s`.  Returns the
consumed original characters and the rest. -/
def schemeCI (s : List Char) : Option (List Char × List Char) :=
  match stripCI ("http".toList) s with
  | none => none
  | some (w1, s1) =>
    match s1 with
    | c :: cs =>
      if asciiLower c = 's' then
        match stripCI ("://".toList) cs with
        | some (w3, s2) => some (w1 ++ c :: w3, s2)
        | none => none
      else
        match stripCI ("://".toList) (c :: cs) with
        | some (w3, s2) => some (w1 ++ w3, s2)
        | none => none
    | [] => none

/-- `_URL_PATTERN` attempted at one position. -/
def urlRun (_prev : Option Char) (s : List Char) : Option (List Char × List Char) :=
  match schemeCI s with
  | none => none
  | some (w, s2) =>
    match s2 with
    | c1 :: c2 :: rest =>
      if !spaceC c1 && !(c1 = '/' || c1 = '$' || c1 = '.' || c1 = '?' || c1 = '#')
          && c2 ≠ '\n' then
        some (w ++ c1 :: c2 :: rest.takeWhile (fun c => !spaceC c),
              rest.dropWhile (fun c => !spaceC c))
      else none
    | _ => none

/-! ## `re.finditer` -/

/-- `re.finditer`, fuelled: scan left to right, attempt the matcher at
each position, emit non-overlapping matches, resume at the end of each
match (tracking the character preceding the current position for `\b`
and lookbehind).  Every matcher above consumes at least one character on
success, so fuel `s.length` is always sufficient. -/
def findIterF (m : Option Char → List Char → Option (List Char × List Char)) :
    Nat → Option Char → List Char → List (List Char)
  | 0, _, _ => []
  | _ + 1, _, [] => []
  | fuel + 1, prev, c :: cs =>
    match m prev (c :: cs) with
    | some (v, rest) => v :: findIterF m fuel (v.getLastD c) rest
    | none => findIterF m fuel (some c) cs

/-- `pattern.finditer(text)`, returning the matched substrings in order. -/
def findIter (m : Option Char → List Char → Option (List Char × List Char))
    (s : List Char) : List (List Char) :=
  findIterF m s.length none s

/-! ## Normalizer and data model -/

/-- Python `text.replace("[.]", ".")`: one left-to-right pass replacing
every (non-overlapping) occurrence of the three characters `[.]` by `.`;
the scan resumes after the replacement. -/
def refangText : List Char → List Char
  | '[' :: '.' :: ']' :: rest => '.' :: refangText rest
  | c :: rest => c :: refangText rest
  | [] => []

/-- `IOCType`: the closed enumeration of supported IOC types. -/
inductive IOCType where
  | ip
  | domain
  | hash
  | url
deriving DecidableEq, Repr

/-- `IOC`: an immutable value object, equal iff both fields are equal. -/
structure IOC where
  type : IOCType
  value : List Char
deriving DecidableEq, Repr

/-! ## `validate_iocs` -/

/-- `validate_iocs`: extract and validate IOCs from text.  Empty (falsy)
input returns the empty set; otherwise the text is refanged once and the
four pattern passes run over it.  The Python function accumulates all
four passes into one `set`; as sets are unordered this is the union of
the four per-pass collections. -/
def validate_iocs (text : List Char) : Finset IOC :=
  if text = [] then ∅
  else
    ((((findIter ipRun (refangText text)).filter validate_ip).map
        (fun v => IOC.mk .ip v)).toFinset ∪
      ((((findIter domainRun (refangText text)).map (List.map asciiLower)).filter
        (fun v => !ipFullmatch v)).map (fun v => IOC.mk .domain v)).toFinset ∪
      ((findIter hashRun (refangText text)).map (fun v => IOC.mk .hash v)).toFinset ∪
      ((findIter urlRun (refangText text)).map (fun v => IOC.mk .url v)).toFinset)

/-- `validate_iocs` with the domain-pass IP cross-filter removed
(the `if _IP_PATTERN.fullmatch(value): continue` branch deleted);
written from the claim that the branch is unreachable, to be compared
with `validate_iocs`. -/
def validate_iocs_nofilter (text : List Char) : Finset IOC :=
  if text = [] then ∅
  else
    ((((findIter ipRun (refangText text)).filter validate_ip).map
        (fun v => IOC.mk .ip v)).toFinset ∪
      (((findIter domainRun (refangText text)).map (List.map asciiLower)).map
        (fun v => IOC.mk .domain v)).toFinset ∪
      ((findIter hashRun (refangText text)).map (fun v => IOC.mk .hash v)).toFinset ∪
      ((findIter urlRun (refangText text)).map (fun v => IOC.mk .url v)).toFinset)

/-- Boundary context is acceptable for `\b`: absent or a non-word
character. -/
def BoundOk (o : Option Char) : Prop := ∀ c, o = some c → wordC c = false

/-- `v` occurs in `s` as a maximal hexadecimal run of length 32, 40 or
64 bounded by non-word characters or the text boundary (`prev` being the
character just before `s`, if any). -/
def HashOcc (prev : Option Char) (s v : List Char) : Prop :=
  ∃ pre post, s = pre ++ v ++ post ∧ (∀ c ∈ v, isHexC c = true) ∧
    (v.length = 32 ∨ v.length = 40 ∨ v.length = 64) ∧
    BoundOk (pre.getLast?.or prev) ∧ BoundOk post.head?

/-! # Lemmas -/

/-! ## Character classes -/

theorem hexC_word {c : Char} (h : isHexC c = true) : wordC c = true := by
  simp only [isHexC, isDigitC, isAlphaC, wordC, Bool.or_eq_true, Bool.and_eq_true,
    decide_eq_true_eq] at *
  omega

theorem alphaC_ldh {c : Char} (h : isAlphaC c = true) : isLDHC c = true := by
  simp only [isLDHC, Bool.or_eq_true, h, true_or]

theorem toNat_ofNat_lower (n : Nat) (h1 : 97 ≤ n) (h2 : n ≤ 122) :
    (Char.ofNat n).toNat = n := by
  interval_cases n <;> decide

theorem asciiLower_toNat (c : Char) :
    (asciiLower c).toNat =
      if 65 ≤ c.toNat ∧ c.toNat ≤ 90 then c.toNat + 32 else c.toNat := by
  unfold asciiLower
  by_cases h : 65 ≤ c.toNat ∧ c.toNat ≤ 90
  · have hb : (65 ≤ c.toNat && c.toNat ≤ 90) = true := by
      simp [Bool.and_eq_true, decide_eq_true_eq, h.1, h.2]
    rw [if_pos hb, if_pos h, toNat_ofNat_lower (c.toNat + 32) (by omega) (by omega)]
  · have hb : (65 ≤ c.toNat && c.toNat ≤ 90) = false := by
      simp only [Bool.and_eq_false_iff, decide_eq_false_iff_not]
      omega
    rw [hb, if_neg h]
    simp

theorem asciiLower_idem (c : Char) : asciiLower (asciiLower c) = asciiLower c := by
  have h := asciiLower_toNat c
  conv_lhs => rw [asciiLower]
  by_cases hc : 65 ≤ c.toNat ∧ c.toNat ≤ 90
  · rw [if_pos hc] at h
    have : (65 ≤ (asciiLower c).toNat && (asciiLower c).toNat ≤ 90) = false := by
      simp only [Bool.and_eq_false_iff, decide_eq_false_iff_not]
      omega
    rw [this]
    simp
  · rw [if_neg hc] at h
    have : (65 ≤ (asciiLower c).toNat && (asciiLower c).toNat ≤ 90) = false := by
      simp only [Bool.and_eq_false_iff, decide_eq_false_iff_not]
      omega
    rw [this]
    simp

theorem asciiLower_alpha {c : Char} (h : isAlphaC c = true) :
    97 ≤ (asciiLower c).toNat ∧ (asciiLower c).toNat ≤ 122 := by
  have ht := asciiLower_toNat c
  simp only [isAlphaC, Bool.or_eq_true, Bool.and_eq_true, decide_eq_true_eq] at h
  rcases h with h | h
  · rw [if_neg (by omega)] at ht
    omega
  · rw [if_pos (by omega)] at ht
    omega

theorem toNat_ne {c d : Char} (h : c.toNat ≠ d.toNat) : c ≠ d := by
  intro he
  exact h (by rw [he])

/-! ## takeWhile / dropWhile helpers -/

theorem dropWhile_head_false (p : Char → Bool) (l : List Char) {c : Char}
    (h : (l.dropWhile p).head? = some c) : p c = false := by
  have hh := List.head?_dropWhile_not p l
  rw [h] at hh
  exact hh

theorem takeWhile_split (p : Char → Bool) (a b : List Char)
    (ha : ∀ c ∈ a, p c = true) (hb : ∀ c, b.head? = some c → p c = false) :
    (a ++ b).takeWhile p = a ∧ (a ++ b).dropWhile p = b := by
  have h1 : (a ++ b).takeWhile p = a ++ b.takeWhile p :=
    List.takeWhile_append_of_pos ha
  have h2 : b.takeWhile p = [] := by
    cases b with
    | nil => rfl
    | cons x xs =>
      have := hb x rfl
      simp [List.takeWhile, this]
  have ht : (a ++ b).takeWhile p = a := by rw [h1, h2, List.append_nil]
  refine ⟨ht, ?_⟩
  have := List.takeWhile_append_dropWhile p (a ++ b)
  rw [ht] at this
  exact List.append_cancel_left this

theorem boundOk_iff (o : Option Char) : BoundOk o ↔ okBound o = true := by
  cases o with
  | none => simp [BoundOk, okBound]
  | some c =>
    simp only [BoundOk, okBound, Bool.not_eq_true', Option.some.injEq]
    constructor
    · intro h
      exact h c rfl
    · intro h d hd
      rw [← hd]
      exact h

/-! ## Soundness and shape of the single-position matchers -/

theorem labelDot_sound {s v r : List Char} (h : labelDot s = some (v, r)) :
    s = v ++ r ∧ v ≠ [] ∧ ∀ c ∈ v, isLDHC c = true ∨ c = '.' := by
  unfold labelDot at h
  split at h
  · split at h
    · cases h
    · rename_i r' heq hne
      simp only [Option.some.injEq, Prod.mk.injEq] at h
      obtain ⟨hv, hr⟩ := h
      subst hv hr
      refine ⟨?_, by simp, ?_⟩
      · have hsplit := List.takeWhile_append_dropWhile isLDHC s
        rw [heq] at hsplit
        rw [List.append_assoc, List.singleton_append]
        exact hsplit.symm
      · intro c hc
        rcases List.mem_append.1 hc with hc | hc
        · exact Or.inl (List.mem_takeWhile_imp hc)
        · simp at hc
          exact Or.inr hc
  · cases h

theorem tldCheck_sound {s v r : List Char} (h : tldCheck s = some (v, r)) :
    s = v ++ r ∧ 2 ≤ v.length ∧ (∀ c ∈ v, isAlphaC c = true) ∧
      okLook r.head? = true := by
  unfold tldCheck at h
  split at h
  · rename_i hcond
    simp only [Bool.and_eq_true, decide_eq_true_eq] at hcond
    simp only [Option.some.injEq, Prod.mk.injEq] at h
    obtain ⟨hv, hr⟩ := h
    subst hv hr
    exact ⟨(List.takeWhile_append_dropWhile isAlphaC s).symm, hcond.1,
      fun c hc => List.mem_takeWhile_imp hc, hcond.2⟩
  · cases h

theorem domainAfterOneF_sound :
    ∀ (fuel : Nat) {s v r : List Char}, domainAfterOneF fuel s = some (v, r) →
      s = v ++ r ∧ v ≠ [] ∧ (∀ c ∈ v, isLDHC c = true ∨ c = '.') ∧
        ∃ x, v.getLast? = some x ∧ isAlphaC x = true := by
  intro fuel
  induction fuel with
  | zero =>
    intro s v r h
    simp only [domainAfterOneF] at h
    obtain ⟨hs, hlen, hall, _⟩ := tldCheck_sound h
    have hne : v ≠ [] := by
      intro hv
      rw [hv] at hlen
      simp at hlen
    exact ⟨hs, hne, fun c hc => Or.inl (alphaC_ldh (hall c hc)),
      v.getLast hne, List.getLast?_eq_getLast v hne, hall _ (List.getLast_mem hne)⟩
  | succ fuel ih =>
    intro s v r h
    rcases hld : labelDot s with _ | ⟨seg, r1⟩
    · simp only [domainAfterOneF, hld] at h
      obtain ⟨hs, hlen, hall, _⟩ := tldCheck_sound h
      have hne : v ≠ [] := by
        intro hv
        rw [hv] at hlen
        simp at hlen
      exact ⟨hs, hne, fun c hc => Or.inl (alphaC_ldh (hall c hc)),
        v.getLast hne, List.getLast?_eq_getLast v hne, hall _ (List.getLast_mem hne)⟩
    · rcases hrec : domainAfterOneF fuel r1 with _ | ⟨v', r''⟩
      · simp only [domainAfterOneF, hld, hrec] at h
        obtain ⟨hs, hlen, hall, _⟩ := tldCheck_sound h
        have hne : v ≠ [] := by
          intro hv
          rw [hv] at hlen
          simp at hlen
        exact ⟨hs, hne, fun c hc => Or.inl (alphaC_ldh (hall c hc)),
          v.getLast hne, List.getLast?_eq_getLast v hne, hall _ (List.getLast_mem hne)⟩
      · simp only [domainAfterOneF, hld, hrec, Option.some.injEq, Prod.mk.injEq] at h
        obtain ⟨hv, hr⟩ := h
        subst hv hr
        obtain ⟨hs1, hns, hseg⟩ := labelDot_sound hld
        obtain ⟨hs2, hne', hall', x, hx, hxa⟩ := ih hrec
        subst hs2
        refine ⟨by rw [hs1, List.append_assoc],
          by intro hc; exact hns (List.append_eq_nil.mp hc).1, ?_, x, ?_, hxa⟩
        · intro c hc
          rcases List.mem_append.1 hc with hc | hc
          · exact hseg c hc
          · exact hall' c hc
        · rw [List.getLast?_append, hx, Option.or_some]

theorem domainRun_sound {p : Option Char} {s v r : List Char}
    (h : domainRun p s = some (v, r)) :
    s = v ++ r ∧ v ≠ [] ∧ (∀ c ∈ v, isLDHC c = true ∨ c = '.') ∧
      ∃ x, v.getLast? = some x ∧ isAlphaC x = true := by
  unfold domainRun at h
  split at h
  · rcases hld : labelDot s with _ | ⟨seg, r1⟩
    · simp only [hld] at h
      exact Option.noConfusion h
    · simp only [hld] at h
      rcases hrec : domainAfterOneF r1.length r1 with _ | ⟨v', r''⟩
      · simp only [hrec] at h
        exact Option.noConfusion h
      · simp only [hrec, Option.some.injEq, Prod.mk.injEq] at h
        obtain ⟨hv, hr⟩ := h
        subst hv hr
        obtain ⟨hs1, hns, hseg⟩ := labelDot_sound hld
        obtain ⟨hs2, hne', hall', x, hx, hxa⟩ := domainAfterOneF_sound _ hrec
        subst hs2
        refine ⟨by rw [hs1, List.append_assoc],
          by intro hc; exact hns (List.append_eq_nil.mp hc).1, ?_, x, ?_, hxa⟩
        · intro c hc
          rcases List.mem_append.1 hc with hc | hc
          · exact hseg c hc
          · exact hall' c hc
        · rw [List.getLast?_append, hx, Option.or_some]
  · cases h

theorem hashRun_eq_some {p : Option Char} {s v r : List Char}
    (h : hashRun p s = some (v, r)) :
    okBound p = true ∧ v = s.takeWhile isHexC ∧ r = s.dropWhile isHexC ∧
      (v.length = 32 ∨ v.length = 40 ∨ v.length = 64) ∧ okBound r.head? = true := by
  unfold hashRun at h
  split at h
  · rename_i hp
    split at h
    · rename_i hcond
      simp only [Bool.and_eq_true, Bool.or_eq_true, decide_eq_true_eq] at hcond
      simp only [Option.some.injEq, Prod.mk.injEq] at h
      obtain ⟨hv, hr⟩ := h
      subst hv hr
      exact ⟨hp, rfl, rfl, by tauto, hcond.2⟩
    · cases h
  · cases h

theorem hashRun_sound {p : Option Char} {s v r : List Char}
    (h : hashRun p s = some (v, r)) : s = v ++ r ∧ v ≠ [] := by
  obtain ⟨_, hv, hr, hlen, _⟩ := hashRun_eq_some h
  subst hv hr
  refine ⟨(List.takeWhile_append_dropWhile isHexC s).symm, ?_⟩
  intro hnil
  rw [hnil] at hlen
  simp at hlen
theorem stripCI_sound :
    ∀ {pat s u r : List Char}, stripCI pat s = some (u, r) →
      s = u ++ r ∧ u.map asciiLower = pat := by
  intro pat
  induction pat with
  | nil =>
    intro s u r h
    simp only [stripCI, Option.some.injEq, Prod.mk.injEq] at h
    obtain ⟨hu, hr⟩ := h
    subst hu hr
    simp
  | cons p ps ih =>
    intro s u r h
    cases s with
    | nil => simp [stripCI] at h
    | cons c cs =>
      simp only [stripCI] at h
      split at h
      · rename_i hc
        rcases hs : stripCI ps cs with _ | ⟨u', r'⟩
        · simp only [hs] at h
          exact Option.noConfusion h
        · simp only [hs, Option.some.injEq, Prod.mk.injEq] at h
          obtain ⟨hu, hr⟩ := h
          subst hu hr
          obtain ⟨h1, h2⟩ := ih hs
          subst h1
          simp [h2, hc]
      · exact Option.noConfusion h

theorem schemeCI_sound {s w r : List Char} (h : schemeCI s = some (w, r)) :
    s = w ++ r ∧
      (w.map asciiLower = "http://".toList ∨ w.map asciiLower = "https://".toList) := by
  unfold schemeCI at h
  rcases h1 : stripCI ("http".toList) s with _ | ⟨w1, s1⟩
  · simp only [h1] at h
    exact Option.noConfusion h
  · simp only [h1] at h
    obtain ⟨hs1, hmap1⟩ := stripCI_sound h1
    split at h
    · rename_i c cs
      split at h
      · rename_i hc
        rcases h3 : stripCI ("://".toList) cs with _ | ⟨w3, s3⟩
        · simp only [h3] at h
          exact Option.noConfusion h
        · simp only [h3, Option.some.injEq, Prod.mk.injEq] at h
          obtain ⟨hw, hr⟩ := h
          subst hw hr
          obtain ⟨hcs, hmap3⟩ := stripCI_sound h3
          subst hcs
          constructor
          · rw [hs1]
            simp
          · right
            rw [List.map_append, hmap1, List.map_cons, hc, hmap3]
            decide
      · rename_i hc
        rcases h3 : stripCI ("://".toList) (c :: cs) with _ | ⟨w3, s3⟩
        · simp only [h3] at h
          exact Option.noConfusion h
        · simp only [h3, Option.some.injEq, Prod.mk.injEq] at h
          obtain ⟨hw, hr⟩ := h
          subst hw hr
          obtain ⟨hcs, hmap3⟩ := stripCI_sound h3
          rw [hcs] at hs1
          constructor
          · rw [hs1]
            simp
          · left
            rw [List.map_append, hmap1, hmap3]
            decide
    · exact Option.noConfusion h

theorem urlRun_shape {p : Option Char} {s v r : List Char}
    (h : urlRun p s = some (v, r)) :
    ∃ (w : List Char) (c1 c2 : Char) (rest : List Char),
      s = v ++ r ∧
      v = w ++ c1 :: c2 :: rest.takeWhile (fun c => !spaceC c) ∧
      r = rest.dropWhile (fun c => !spaceC c) ∧
      (w.map asciiLower = "http://".toList ∨ w.map asciiLower = "https://".toList) ∧
      spaceC c1 = false ∧
      c1 ≠ '/' ∧ c1 ≠ '$' ∧ c1 ≠ '.' ∧ c1 ≠ '?' ∧ c1 ≠ '#' ∧ c2 ≠ '\n' := by
  unfold urlRun at h
  rcases hsch : schemeCI s with _ | ⟨w, s2⟩
  · simp only [hsch] at h
    exact Option.noConfusion h
  · simp only [hsch] at h
    obtain ⟨hsw, hmap⟩ := schemeCI_sound hsch
    split at h
    · rename_i c1 c2 rest
      split at h
      · rename_i hcond
        simp only [Bool.and_eq_true, Bool.not_eq_true', Bool.or_eq_true,
          Bool.or_eq_false_iff, decide_eq_true_eq, decide_eq_false_iff_not] at hcond
        obtain ⟨⟨hsp, hex⟩, hnl⟩ := hcond
        simp only [Option.some.injEq, Prod.mk.injEq] at h
        obtain ⟨hv, hr⟩ := h
        refine ⟨w, c1, c2, rest, ?_, hv.symm, hr.symm, hmap, hsp, ?_, ?_, ?_, ?_, ?_, hnl⟩
        · rw [← hv, ← hr, hsw]
          simp only [List.append_assoc, List.cons_append]
          rw [List.takeWhile_append_dropWhile]
        all_goals tauto
      · exact Option.noConfusion h
    · exact Option.noConfusion h

theorem urlRun_sound {p : Option Char} {s v r : List Char}
    (h : urlRun p s = some (v, r)) : s = v ++ r ∧ v ≠ [] := by
  obtain ⟨w, c1, c2, rest, hsvr, hv, hr, hmap, _⟩ := urlRun_shape h
  refine ⟨hsvr, ?_⟩
  intro hnil
  rw [hnil] at hv
  have := congrArg List.length hv
  simp at this
  omega

/-! ## The generic `finditer` scan -/

/-- Every substring emitted by the scan arises from a successful match of
`m` at some position: the text splits as `pre ++ (v ++ rest)`, the match
succeeded on `v ++ rest` with the correct preceding-character context,
and consumed exactly `v`. -/
theorem findIterF_sound
    (m : Option Char → List Char → Option (List Char × List Char))
    (hm : ∀ p s v r, m p s = some (v, r) → s = v ++ r ∧ v ≠ []) :
    ∀ (fuel : Nat) (prev : Option Char) (s v : List Char),
      v ∈ findIterF m fuel prev s →
      ∃ pre rest p', s = pre ++ (v ++ rest) ∧ m p' (v ++ rest) = some (v, rest) ∧
        p' = pre.getLast?.or prev := by
  intro fuel
  induction fuel with
  | zero =>
    intro prev s v h
    simp [findIterF] at h
  | succ fuel ih =>
    intro prev s v h
    cases s with
    | nil => simp [findIterF] at h
    | cons c cs =>
      rcases hm0 : m prev (c :: cs) with _ | ⟨v0, rest0⟩
      · simp only [findIterF, hm0] at h
        obtain ⟨pre, rest, p', hsplit, hmatch, hp'⟩ := ih (some c) cs v h
        refine ⟨c :: pre, rest, p', by rw [hsplit]; rfl, hmatch, ?_⟩
        rw [hp']
        have : (c :: pre) = [c] ++ pre := rfl
        rw [this, List.getLast?_append, Option.or_assoc]
        rfl
      · simp only [findIterF, hm0, List.mem_cons] at h
        obtain ⟨hs0, hne0⟩ := hm prev (c :: cs) v0 rest0 hm0
        rcases h with h | h
        · subst h
          exact ⟨[], rest0, prev, by rw [hs0]; rfl, by rw [← hs0, hm0], by simp⟩
        · obtain ⟨pre, rest, p', hsplit, hmatch, hp'⟩ := ih (v0.getLastD c) rest0 v h
          refine ⟨v0 ++ pre, rest, p', ?_, hmatch, ?_⟩
          · rw [hs0, hsplit, List.append_assoc]
          · rw [hp', List.getLast?_append, Option.or_assoc]
            have hl : v0.getLast? = some (v0.getLastD c) := by
              rw [List.getLastD_eq_getLast?, List.getLast?_eq_getLast v0 hne0]
              rfl
            rw [hl, Option.or_some]

/-! ## Membership in the result set, per IOC type -/

theorem mem_ip_iff (t v : List Char) :
    IOC.mk .ip v ∈ validate_iocs t ↔
      t ≠ [] ∧ v ∈ findIter ipRun (refangText t) ∧ validate_ip v = true := by
  unfold validate_iocs
  split
  · rename_i ht
    simp [ht]
  · rename_i ht
    simp [ht, Finset.mem_union, List.mem_toFinset, List.mem_map, List.mem_filter,
      IOC.mk.injEq, and_comm]

theorem mem_domain_iff (t v : List Char) :
    IOC.mk .domain v ∈ validate_iocs t ↔
      t ≠ [] ∧ (∃ m ∈ findIter domainRun (refangText t), List.map asciiLower m = v) ∧
        ipFullmatch v = false := by
  unfold validate_iocs
  split
  · rename_i ht
    simp [ht]
  · rename_i ht
    simp [ht, Finset.mem_union, List.mem_toFinset, List.mem_map, List.mem_filter,
      IOC.mk.injEq]

theorem mem_hash_iff (t v : List Char) :
    IOC.mk .hash v ∈ validate_iocs t ↔
      t ≠ [] ∧ v ∈ findIter hashRun (refangText t) := by
  unfold validate_iocs
  split
  · rename_i ht
    simp [ht]
  · rename_i ht
    simp [ht, Finset.mem_union, List.mem_toFinset, List.mem_map, List.mem_filter,
      IOC.mk.injEq]

theorem mem_url_iff (t v : List Char) :
    IOC.mk .url v ∈ validate_iocs t ↔
      t ≠ [] ∧ v ∈ findIter urlRun (refangText t) := by
  unfold validate_iocs
  split
  · rename_i ht
    simp [ht]
  · rename_i ht
    simp [ht, Finset.mem_union, List.mem_toFinset, List.mem_map, List.mem_filter,
      IOC.mk.injEq]

/-! ## The normalizer -/

theorem refang_ne_nil : ∀ {t : List Char}, t ≠ [] → refangText t ≠ [] := by
  intro t h
  cases t with
  | nil => exact absurd rfl h
  | cons c rest =>
    unfold refangText
    split <;> simp_all

theorem refang_cons_eq (c : Char) (rest : List Char)
    (h : ¬ (['[', '.', ']'] <+: (c :: rest))) :
    refangText (c :: rest) = c :: refangText rest := by
  conv_lhs => rw [refangText.eq_def]
  split
  · rename_i r2 heq
    exfalso
    apply h
    rw [heq]
    exact ⟨r2, rfl⟩
  · rename_i c' rest' heq
    injection heq with h1 h2
    subst h1 h2
    rfl
  · rename_i heq
    exact absurd heq (by simp)

theorem refang_no_occ : ∀ (s : List Char), ¬ (['[', '.', ']'] <:+: s) →
    refangText s = s := by
  intro s
  induction s with
  | nil => intro _; rfl
  | cons c rest ih =>
    intro h
    have hpre : ¬ (['[', '.', ']'] <+: (c :: rest)) := by
      intro ⟨u, hu⟩
      exact h ⟨[], u, by simpa using hu⟩
    rw [refang_cons_eq c rest hpre, ih ?_]
    intro ⟨a, b, hab⟩
    exact h ⟨c :: a, b, by rw [← hab]; rfl⟩

/-! # The claims -/

/-- Claim C1, counterexample: for `text = "a[[.]]com"`, `extract(text)`
differs from `extract(text with every "[.]" replaced by ".")`: the
replacement of `"[[.]]"` yields `"[.]"`, so the refanged form of the text
still contains a defanged dot, while refanging the already-replaced text
exposes the domain `a.com`.  The claimed identity is false. -/
theorem claim_C1_counterexample :
    validate_iocs ("a[[.]]com".toList) ≠
      validate_iocs (refangText ("a[[.]]com".toList)) := by
  decide

/-- Claim C1 (amended): for every text whose refanged form contains no
remaining occurrence of the three-character sequence `[.]` (i.e. the
single replacement pass is idempotent on it — true in particular for
every text without nested brackets), `extract(text)` equals
`extract(text with every "[.]" replaced by ".")`. -/
theorem claim_C1 (t : List Char) (h : ¬ (['[', '.', ']'] <:+: refangText t)) :
    validate_iocs t = validate_iocs (refangText t) := by
  by_cases ht : t = []
  · subst ht
    rfl
  · have hr : refangText t ≠ [] := refang_ne_nil ht
    have hrr : refangText (refangText t) = refangText t := refang_no_occ _ h
    unfold validate_iocs
    rw [if_neg ht, if_neg hr, hrr]

/-- Witness for C1 at `text = "a[.]com"`. -/
theorem claim_C1_witness :
    ¬ (['[', '.', ']'] <:+: refangText ("a[.]com".toList)) ∧
      validate_iocs ("a[.]com".toList) =
        validate_iocs (refangText ("a[.]com".toList)) :=
  ⟨by decide, claim_C1 ("a[.]com".toList) (by decide)⟩

/-- Claim C3, counterexample: on `"http://malicious[.]example[.]com/path"`
the result is not the singleton URL set — the domain pass also extracts
`malicious.example.com` from the refanged text. -/
theorem claim_C3_counterexample :
    validate_iocs ("http://malicious[.]example[.]com/path".toList) ≠
      ({IOC.mk .url ("http://malicious.example.com/path".toList)} : Finset IOC) := by
  decide

/-- Claim C3 (amended): for the input `"http://malicious[.]example[.]com/path"`,
extract returns exactly the two-element set containing
`IOC(URL, "http://malicious.example.com/path")` and
`IOC(DOMAIN, "malicious.example.com")`. -/
theorem claim_C3 :
    validate_iocs ("http://malicious[.]example[.]com/path".toList) =
      {IOC.mk .url ("http://malicious.example.com/path".toList),
       IOC.mk .domain ("malicious.example.com".toList)} := by
  decide

/-- Claim C7: for the input `"alpha.com beta.org gamma.net delta.co"`,
extract returns exactly the four domain IOCs and nothing else. -/
theorem claim_C7 :
    validate_iocs ("alpha.com beta.org gamma.net delta.co".toList) =
      {IOC.mk .domain ("alpha.com".toList), IOC.mk .domain ("beta.org".toList),
       IOC.mk .domain ("gamma.net".toList), IOC.mk .domain ("delta.co".toList)} := by
  decide

/-- Claim C9: `extract` is total by construction (it is a Lean function
defined on all of `List Char`), and the empty (falsy) input yields the
empty result set without error. -/
theorem claim_C9 : validate_iocs [] = ∅ := rfl

/-! ## Characterizing `_validate_ip` -/

theorem validate_ip_iff (v : List Char) :
    validate_ip v = true ↔
      (splitOnDot v).length = 4 ∧
        ∀ p ∈ splitOnDot v, ∃ n : Int, pyInt p = some n ∧ 0 ≤ n ∧ n ≤ 255 := by
  unfold validate_ip
  split
  · rename_i hlen
    constructor
    · intro hf
      cases hf
    · intro ⟨h4, _⟩
      exact absurd h4 hlen
  · rename_i hlen
    rw [not_not] at hlen
    rw [List.all_eq_true]
    constructor
    · intro hall
      refine ⟨hlen, fun p hp => ?_⟩
      have hh := hall p hp
      cases hpi : pyInt p with
      | none =>
        rw [hpi] at hh
        cases hh
      | some n =>
        rw [hpi] at hh
        simp only [Bool.not_eq_true', Bool.or_eq_false_iff, decide_eq_false_iff_not,
          not_lt] at hh
        exact ⟨n, rfl, hh.1, hh.2⟩
    · intro ⟨_, hall⟩ p hp
      obtain ⟨n, hn, h0, h255⟩ := hall p hp
      rw [hn]
      simp only [Bool.not_eq_true', Bool.or_eq_false_iff, decide_eq_false_iff_not,
        not_lt]
      exact ⟨h0, h255⟩

/-- Claim C4: a dotted-quad candidate located by the IP pattern is
emitted as `IOC(IP, value)` iff splitting it on `.` yields exactly four
parts, each parsing as an integer in `[0, 255]`; failures are silently
dropped (the function is total and merely omits the candidate), and the
stored value is the matched string verbatim — in particular the
leading-zero input `"001.002.003.004"` is preserved verbatim. -/
theorem claim_C4 :
    (∀ (t v : List Char),
      IOC.mk .ip v ∈ validate_iocs t ↔
        t ≠ [] ∧ v ∈ findIter ipRun (refangText t) ∧
          ((splitOnDot v).length = 4 ∧
            ∀ p ∈ splitOnDot v, ∃ n : Int, pyInt p = some n ∧ 0 ≤ n ∧ n ≤ 255)) ∧
    IOC.mk .ip ("001.002.003.004".toList) ∈
      validate_iocs ("001.002.003.004".toList) := by
  constructor
  · intro t v
    rw [mem_ip_iff, validate_ip_iff]
  · decide

/-- Witness for C4: the characterization applied at `"192.168.1.1"`. -/
theorem claim_C4_witness :
    ("192.168.1.1".toList ≠ []) ∧
      ("192.168.1.1".toList ∈ findIter ipRun (refangText ("192.168.1.1".toList))) ∧
      ((splitOnDot ("192.168.1.1".toList)).length = 4 ∧
        ∀ p ∈ splitOnDot ("192.168.1.1".toList),
          ∃ n : Int, pyInt p = some n ∧ 0 ≤ n ∧ n ≤ 255) :=
  (claim_C4.1 ("192.168.1.1".toList) ("192.168.1.1".toList)).mp (by decide)

/-- Claim C5: for every text and value, if the value matches the
dotted-quad shape of the IP pattern and passes octet validation and
appears as an IP IOC, then it does not also appear as a DOMAIN IOC:
the domain pass discards any candidate fully matched by the IP
pattern. -/
theorem claim_C5 (t v : List Char) (h1 : ipFullmatch v = true)
    (h2 : validate_ip v = true) (h3 : IOC.mk .ip v ∈ validate_iocs t) :
    IOC.mk .domain v ∉ validate_iocs t := by
  intro hdom
  rw [mem_domain_iff] at hdom
  obtain ⟨-, -, hfalse⟩ := hdom
  rw [h1] at hfalse
  cases hfalse

/-- Witness for C5 at `text = value = "192.168.1.1"`. -/
theorem claim_C5_witness :
    ipFullmatch ("192.168.1.1".toList) = true ∧
      validate_ip ("192.168.1.1".toList) = true ∧
      IOC.mk .ip ("192.168.1.1".toList) ∈ validate_iocs ("192.168.1.1".toList) ∧
      IOC.mk .domain ("192.168.1.1".toList) ∉ validate_iocs ("192.168.1.1".toList) :=
  ⟨by decide, by decide, by decide,
    claim_C5 ("192.168.1.1".toList) ("192.168.1.1".toList)
      (by decide) (by decide) (by decide)⟩

/-! ## C6: the domain-pass IP filter is unreachable -/

theorem splitOnDot_dot (r : List Char) : splitOnDot ('.' :: r) = [] :: splitOnDot r := by
  rfl

theorem splitOnDot_cons (a : Char) (r : List Char) (ha : a ≠ '.') :
    splitOnDot (a :: r) =
      match splitOnDot r with
      | p :: ps => (a :: p) :: ps
      | [] => [[a]] := by
  rw [splitOnDot.eq_def]
  split
  · rename_i heq
    cases heq
  · rename_i r2 heq
    injection heq with h1 _
    exact absurd h1 ha
  · rename_i c r2 hex heq
    injection heq with h1 h2
    subst h1 h2
    rfl

theorem splitOnDot_ne_nil : ∀ (w : List Char), splitOnDot w ≠ [] := by
  intro w
  induction w with
  | nil => simp [splitOnDot]
  | cons a r ih =>
    by_cases ha : a = '.'
    · subst ha
      rw [splitOnDot_dot]
      simp
    · rw [splitOnDot_cons a r ha]
      rcases hsr : splitOnDot r with _ | ⟨p, ps⟩
      · exact absurd hsr ih
      · simp

theorem splitOnDot_chars : ∀ (w : List Char) (c : Char), c ∈ w →
    c = '.' ∨ ∃ p ∈ splitOnDot w, c ∈ p := by
  intro w
  induction w with
  | nil =>
    intro c hc
    cases hc
  | cons a r ih =>
    intro c hc
    by_cases ha : a = '.'
    · subst ha
      rcases List.mem_cons.mp hc with rfl | hc
      · exact Or.inl rfl
      · rcases ih c hc with h | ⟨p, hp, hcp⟩
        · exact Or.inl h
        · exact Or.inr ⟨p, by rw [splitOnDot_dot]; exact List.mem_cons_of_mem _ hp, hcp⟩
    · rcases hsr : splitOnDot r with _ | ⟨p, ps⟩
      · exact absurd hsr (splitOnDot_ne_nil r)
      · have hres : splitOnDot (a :: r) = (a :: p) :: ps := by
          rw [splitOnDot_cons a r ha, hsr]
        rcases List.mem_cons.mp hc with heqc | hc
        · subst heqc
          exact Or.inr ⟨c :: p, by rw [hres]; simp, by simp⟩
        · rcases ih c hc with h | ⟨q, hq, hcq⟩
          · exact Or.inl h
          · rw [hsr] at hq
            rcases List.mem_cons.mp hq with rfl | hq
            · exact Or.inr ⟨a :: q, by rw [hres]; simp, List.mem_cons_of_mem _ hcq⟩
            · exact Or.inr ⟨q, by rw [hres]; exact List.mem_cons_of_mem _ hq, hcq⟩

theorem ipFull_chars {w : List Char} (h : ipFullmatch w = true) :
    ∀ c ∈ w, isDigitC c = true ∨ c = '.' := by
  intro c hc
  unfold ipFullmatch at h
  split at h
  · rename_i a b c' d heq
    rw [List.all_eq_true] at h
    rcases splitOnDot_chars w c hc with h' | ⟨p, hp, hcp⟩
    · exact Or.inr h'
    · rw [heq] at hp
      have hdig := h p hp
      simp only [Bool.and_eq_true] at hdig
      exact Or.inl (List.all_eq_true.mp hdig.2 c hcp)
  · cases h

/-- A value produced by the domain pass (a domain-pattern match,
lower-cased) never fully matches the IP pattern: its last character is a
letter while an IP-shaped string ends in a digit. -/
theorem domain_value_not_ipFull {s m : List Char}
    (hm : m ∈ findIter domainRun s) :
    ipFullmatch (m.map asciiLower) = false := by
  obtain ⟨pre, rest, p', hsplit, hmatch, hp'⟩ :=
    findIterF_sound domainRun
      (fun p s v r h => ⟨(domainRun_sound h).1, (domainRun_sound h).2.1⟩)
      s.length none s m hm
  obtain ⟨-, -, -, x, hx, hxa⟩ := domainRun_sound hmatch
  cases hfull : ipFullmatch (m.map asciiLower) with
  | false => rfl
  | true =>
    exfalso
    have hlast : (m.map asciiLower).getLast? = some (asciiLower x) := by
      rw [List.getLast?_map, hx]
      rfl
    obtain ⟨ys, hys⟩ := List.getLast?_eq_some_iff.mp hlast
    have hmem : asciiLower x ∈ m.map asciiLower := by
      rw [hys]
      simp
    have hrange := asciiLower_alpha hxa
    rcases ipFull_chars hfull _ hmem with hdig | hdot
    · simp only [isDigitC, Bool.and_eq_true, decide_eq_true_eq] at hdig
      omega
    · have : (asciiLower x).toNat = 46 := by rw [hdot]; rfl
      omega

/-- Claim C6: the domain-pass cross-filter branch is unreachable — no
string matched by the domain pattern is fully matched by the IP pattern
(the domain grammar ends in a letter, the IP shape in a digit) — so
`validate_iocs` is extensionally equal to the same function with the
filter removed. -/
theorem claim_C6 (t : List Char) : validate_iocs t = validate_iocs_nofilter t := by
  have hfilter : ((findIter domainRun (refangText t)).map (List.map asciiLower)).filter
      (fun v => !ipFullmatch v) =
      (findIter domainRun (refangText t)).map (List.map asciiLower) := by
    rw [List.filter_eq_self]
    intro a ha
    rw [List.mem_map] at ha
    obtain ⟨m, hm, rfl⟩ := ha
    rw [domain_value_not_ipFull hm]
    rfl
  unfold validate_iocs validate_iocs_nofilter
  by_cases ht : t = []
  · rw [if_pos ht, if_pos ht]
  · rw [if_neg ht, if_neg ht, hfilter]

/-- Witness for C6 at a text that exercises both an IP and a domain. -/
theorem claim_C6_witness :
    validate_iocs ("8.8.8.8 google.com".toList) =
      validate_iocs_nofilter ("8.8.8.8 google.com".toList) :=
  claim_C6 ("8.8.8.8 google.com".toList)

/-! ## C2 and C10: URL shape, hash/URL verbatim values, domain lower-casing -/

/-- Claim C2, counterexample: the regex `.` after the first post-scheme
character may consume a (non-newline) whitespace character, so a URL
IOC value can contain whitespace: on input `"http://a b"` the whole
string, space included, is the extracted URL value. -/
theorem claim_C2_counterexample :
    IOC.mk .url ("http://a b".toList) ∈ validate_iocs ("http://a b".toList) ∧
      ' ' ∈ "http://a b".toList ∧ spaceC ' ' = true := by
  decide

/-- Claim C2 (amended): every URL IOC value consists of `http://` or
`https://` (case-insensitive scheme, original case preserved), one
character that is not whitespace and none of `/`, `$`, `.`, `?`, `#`,
then one arbitrary character other than newline (which may itself be
whitespace — this is where the original claim fails), then a greedy run
of non-whitespace characters; the match extends to the next whitespace
character of the refanged text or to its end. -/
theorem claim_C2 (t v : List Char) (h : IOC.mk .url v ∈ validate_iocs t) :
    ∃ (w : List Char) (c1 c2 : Char) (run pre post : List Char),
      v = w ++ c1 :: c2 :: run ∧
      (w.map asciiLower = "http://".toList ∨ w.map asciiLower = "https://".toList) ∧
      spaceC c1 = false ∧
      c1 ≠ '/' ∧ c1 ≠ '$' ∧ c1 ≠ '.' ∧ c1 ≠ '?' ∧ c1 ≠ '#' ∧
      c2 ≠ '\n' ∧ (∀ c ∈ run, spaceC c = false) ∧
      refangText t = pre ++ (v ++ post) ∧
      (∀ c, post.head? = some c → spaceC c = true) := by
  rw [mem_url_iff] at h
  obtain ⟨ht, hv⟩ := h
  obtain ⟨pre, rest, p', hsplit, hmatch, -⟩ :=
    findIterF_sound urlRun (fun p s v r h => urlRun_sound h)
      (refangText t).length none (refangText t) v hv
  obtain ⟨w, c1, c2, rest0, hsvr, hveq, hre, hmap, hsp, h1, h2, h3, h4, h5, hnl⟩ :=
    urlRun_shape hmatch
  refine ⟨w, c1, c2, rest0.takeWhile (fun c => !spaceC c), pre, rest, hveq, hmap, hsp,
    h1, h2, h3, h4, h5, hnl, ?_, hsplit, ?_⟩
  · intro c hc
    have := List.mem_takeWhile_imp hc
    simpa using this
  · intro c hc
    rw [hre] at hc
    have := dropWhile_head_false _ _ hc
    simpa using this

/-- Witness for C2 at `text = "http://ab"`. -/
theorem claim_C2_witness :
    ∃ (w : List Char) (c1 c2 : Char) (run pre post : List Char),
      "http://ab".toList = w ++ c1 :: c2 :: run ∧
      (w.map asciiLower = "http://".toList ∨ w.map asciiLower = "https://".toList) ∧
      spaceC c1 = false ∧
      c1 ≠ '/' ∧ c1 ≠ '$' ∧ c1 ≠ '.' ∧ c1 ≠ '?' ∧ c1 ≠ '#' ∧
      c2 ≠ '\n' ∧ (∀ c ∈ run, spaceC c = false) ∧
      refangText ("http://ab".toList) = pre ++ ("http://ab".toList ++ post) ∧
      (∀ c, post.head? = some c → spaceC c = true) :=
  claim_C2 ("http://ab".toList) ("http://ab".toList) (by decide)

/-- Claim C10: every extracted IOC of type DOMAIN has a value that is
its own lower-casing, and every IOC of type URL or HASH stores the
matched substring of the refanged text verbatim (so with its original
case). -/
theorem claim_C10 (t : List Char) (x : IOC) (h : x ∈ validate_iocs t) :
    (x.type = IOCType.domain → x.value = x.value.map asciiLower) ∧
    ((x.type = IOCType.url ∨ x.type = IOCType.hash) →
      x.value <:+: refangText t) := by
  obtain ⟨ty, v⟩ := x
  cases ty with
  | ip =>
    constructor
    · intro h'
      exact absurd h' (by simp)
    · intro h'
      rcases h' with h' | h' <;> exact absurd h' (by simp)
  | domain =>
    constructor
    · intro _
      rw [mem_domain_iff] at h
      obtain ⟨-, ⟨m, hm, rfl⟩, -⟩ := h
      show List.map asciiLower m = (List.map asciiLower m).map asciiLower
      rw [List.map_map]
      exact List.map_congr_left fun a _ => (asciiLower_idem a).symm
    · intro h'
      rcases h' with h' | h' <;> exact absurd h' (by simp)
  | hash =>
    constructor
    · intro h'
      exact absurd h' (by simp)
    · intro _
      rw [mem_hash_iff] at h
      obtain ⟨-, hv⟩ := h
      obtain ⟨pre, rest, p', hsplit, -, -⟩ :=
        findIterF_sound hashRun (fun p s v r h => hashRun_sound h)
          (refangText t).length none (refangText t) v hv
      exact ⟨pre, rest, by rw [hsplit, List.append_assoc]⟩
  | url =>
    constructor
    · intro h'
      exact absurd h' (by simp)
    · intro _
      rw [mem_url_iff] at h
      obtain ⟨-, hv⟩ := h
      obtain ⟨pre, rest, p', hsplit, -, -⟩ :=
        findIterF_sound urlRun (fun p s v r h => urlRun_sound h)
          (refangText t).length none (refangText t) v hv
      exact ⟨pre, rest, by rw [hsplit, List.append_assoc]⟩

/-- Witness for C10 at `text = "Visit EXAMPLE.Com now"` with the
lower-cased domain IOC. -/
theorem claim_C10_witness :
    ((IOC.mk .domain ("example.com".toList)).type = IOCType.domain →
      (IOC.mk .domain ("example.com".toList)).value =
        (IOC.mk .domain ("example.com".toList)).value.map asciiLower) ∧
    (((IOC.mk .domain ("example.com".toList)).type = IOCType.url ∨
        (IOC.mk .domain ("example.com".toList)).type = IOCType.hash) →
      (IOC.mk .domain ("example.com".toList)).value <:+:
        refangText ("Visit EXAMPLE.Com now".toList)) :=
  claim_C10 ("Visit EXAMPLE.Com now".toList)
    (IOC.mk .domain ("example.com".toList)) (by decide)

/-! ## C8: the hash pass emits exactly the bounded hex runs of length 32/40/64 -/

theorem hexC_false_of_word_false {c : Char} (h : wordC c = false) : isHexC c = false := by
  cases hhex : isHexC c with
  | false => rfl
  | true =>
    rw [hexC_word hhex] at h
    cases h

theorem getLast?_cons_or (c : Char) (pre : List Char) (prev : Option Char) :
    ((c :: pre).getLast?).or prev = (pre.getLast?).or (some c) := by
  have h : (c :: pre) = [c] ++ pre := rfl
  rw [h, List.getLast?_append, Option.or_assoc]
  rfl

theorem getLast?_append_or (w pre : List Char) (hw : w ≠ []) (prev : Option Char) :
    ((w ++ pre).getLast?).or prev = (pre.getLast?).or w.getLast? := by
  rw [List.getLast?_append, Option.or_assoc]
  rw [List.getLast?_eq_getLast w hw, Option.or_some]

theorem hashOcc_nil {prev : Option Char} {v : List Char}
    (h : HashOcc prev [] v) : False := by
  obtain ⟨pre, post, hsp, -, hlen, -, -⟩ := h
  have hl := congrArg List.length hsp
  simp only [List.length_nil, List.length_append] at hl
  rcases hlen with h' | h' | h' <;> omega

/-- If `v ++ post` opens with the hex run `v` of valid hash length in
valid boundary context, the hash matcher succeeds there with exactly
that division. -/
theorem hashRun_of_occ {prev : Option Char} {v post : List Char}
    (hhex : ∀ c ∈ v, isHexC c = true)
    (hlen : v.length = 32 ∨ v.length = 40 ∨ v.length = 64)
    (hb1 : BoundOk prev) (hb2 : BoundOk post.head?) :
    hashRun prev (v ++ post) = some (v, post) := by
  obtain ⟨ht, hd⟩ := takeWhile_split isHexC v post hhex
    (fun c hc => hexC_false_of_word_false (hb2 c hc))
  unfold hashRun
  rw [if_pos ((boundOk_iff prev).mp hb1), ht, hd, if_pos]
  simp only [Bool.and_eq_true, Bool.or_eq_true, decide_eq_true_eq]
  refine ⟨by tauto, (boundOk_iff _).mp hb2⟩

/-- The scan of the hash matcher emits exactly the maximal hexadecimal
runs of length 32, 40 or 64 that are bounded by non-word characters or
the text boundary. -/
theorem hash_iter_iff :
    ∀ (fuel : Nat) (prev : Option Char) (s : List Char), s.length ≤ fuel →
      ∀ v, (v ∈ findIterF hashRun fuel prev s ↔ HashOcc prev s v) := by
  intro fuel
  induction fuel with
  | zero =>
    intro prev s hs v
    have hnil : s = [] := List.length_eq_zero.mp (Nat.le_zero.mp hs)
    subst hnil
    simp only [findIterF, List.not_mem_nil, false_iff]
    exact fun h => hashOcc_nil h
  | succ fuel ih =>
    intro prev s hs v
    cases s with
    | nil =>
      simp only [findIterF, List.not_mem_nil, false_iff]
      exact fun h => hashOcc_nil h
    | cons c cs =>
      rcases hh : hashRun prev (c :: cs) with _ | ⟨w, rest⟩
      · -- no match at this position: step to the next character
        have hstep : findIterF hashRun (fuel + 1) prev (c :: cs) =
            findIterF hashRun fuel (some c) cs := by
          simp only [findIterF, hh]
        rw [hstep, ih (some c) cs (by simpa using hs) v]
        constructor
        · rintro ⟨pre', post', hsp, hhex, hlen, hb1, hb2⟩
          refine ⟨c :: pre', post', by rw [hsp]; rfl, hhex, hlen, ?_, hb2⟩
          rw [getLast?_cons_or]
          exact hb1
        · rintro ⟨pre, post, hsp, hhex, hlen, hb1, hb2⟩
          cases pre with
          | nil =>
            exfalso
            simp only [List.nil_append] at hsp
            rw [hsp, hashRun_of_occ hhex hlen (by simpa using hb1) hb2] at hh
            cases hh
          | cons p0 pre' =>
            have hp0 : p0 = c ∧ cs = pre' ++ v ++ post := by
              have := hsp
              simp only [List.cons_append] at this
              injection this with h1 h2
              exact ⟨h1.symm, h2⟩
            obtain ⟨rfl, hcs⟩ := hp0
            refine ⟨pre', post, hcs, hhex, hlen, ?_, hb2⟩
            rw [getLast?_cons_or] at hb1
            exact hb1
      · -- a match `w` at this position
        obtain ⟨hsw, hwne⟩ := hashRun_sound hh
        obtain ⟨hbp, hwtake, hrdrop, hwlen, hbr⟩ := hashRun_eq_some hh
        have hwhex : ∀ x ∈ w, isHexC x = true := by
          intro x hx
          rw [hwtake] at hx
          exact List.mem_takeWhile_imp hx
        have hfuel : rest.length ≤ fuel := by
          have hlen2 := congrArg List.length hsw
          simp only [List.length_append, List.length_cons] at hlen2
          have hs' : cs.length + 1 ≤ fuel + 1 := by simpa using hs
          have hwpos : 1 ≤ w.length := by
            rcases hwlen with h | h | h <;> omega
          omega
        have hlw : w.getLast? = some (w.getLastD c) := by
          rw [List.getLastD_eq_getLast?, List.getLast?_eq_getLast w hwne]
          rfl
        have hstep : findIterF hashRun (fuel + 1) prev (c :: cs) =
            w :: findIterF hashRun fuel (w.getLastD c) rest := by
          simp only [findIterF, hh]
        rw [hstep, List.mem_cons, ih (w.getLastD c) rest hfuel v]
        constructor
        · rintro (rfl | hocc)
          · -- the head match itself
            refine ⟨[], rest, by simpa using hsw, hwhex, hwlen, ?_, ?_⟩
            · simpa using (boundOk_iff prev).mpr hbp
            · exact (boundOk_iff _).mpr hbr
          · -- a later match, shifted by `w`
            obtain ⟨pre', post', hsp, hhex, hlen, hb1, hb2⟩ := hocc
            refine ⟨w ++ pre', post', ?_, hhex, hlen, ?_, hb2⟩
            · rw [hsw, hsp]
              simp [List.append_assoc]
            · rw [getLast?_append_or w pre' hwne prev, hlw]
              exact hb1
        · rintro ⟨pre, post, hsp, hhex, hlen, hb1, hb2⟩
          cases hpre : pre with
          | nil =>
            subst hpre
            left
            simp only [List.nil_append] at hsp
            rw [hsp, hashRun_of_occ hhex hlen (by simpa using hb1) hb2] at hh
            injection hh with hh'
            injection hh' with h1 h2
          | cons p0 pre'' =>
            subst hpre
            right
            -- the match `w` is a proper prefix of `pre`
            have hpre_ne : (p0 :: pre'') ≠ ([] : List Char) := by simp
            have hplast : ∃ y, (p0 :: pre'').getLast? = some y ∧ wordC y = false := by
              refine ⟨(p0 :: pre'').getLast hpre_ne,
                List.getLast?_eq_getLast _ hpre_ne, ?_⟩
              have := hb1 ((p0 :: pre'').getLast hpre_ne)
              rw [List.getLast?_eq_getLast _ hpre_ne, Option.or_some] at this
              exact this rfl
            obtain ⟨y, hy, hyw⟩ := hplast
            have hwpre : w <+: (c :: cs) := by
              rw [hwtake]
              exact List.takeWhile_prefix _
            have hppre : (p0 :: pre'') <+: (c :: cs) := ⟨v ++ post, by
              rw [hsp]
              simp [List.append_assoc]⟩
            have hlt : w.length < (p0 :: pre'').length := by
              by_contra hge
              rw [not_lt] at hge
              have hsub : (p0 :: pre'') <+: w :=
                List.prefix_of_prefix_length_le hppre hwpre hge
              have hymem : y ∈ (p0 :: pre'') := by
                obtain ⟨ys, hys⟩ := List.getLast?_eq_some_iff.mp hy
                rw [hys]
                simp
              have : isHexC y = true := hwhex y (hsub.mem hymem)
              rw [hexC_word this] at hyw
              cases hyw
            have hwp : w <+: (p0 :: pre'') :=
              List.prefix_of_prefix_length_le hwpre hppre (Nat.le_of_lt hlt)
            obtain ⟨pre2, hpre2⟩ := hwp
            have hpre2_ne : pre2 ≠ [] := by
              intro hcon
              rw [hcon, List.append_nil] at hpre2
              rw [hpre2] at hlt
              omega
            have hrest : rest = pre2 ++ v ++ post := by
              have hw2 : w ++ rest = w ++ (pre2 ++ v ++ post) := by
                rw [← hsw, hsp, ← hpre2]
                simp [List.append_assoc]
              exact List.append_cancel_left hw2
            refine ⟨pre2, post, hrest, hhex, hlen, ?_, hb2⟩
            have hy2 : pre2.getLast? = some y := by
              have hg := List.getLast?_eq_getLast pre2 hpre2_ne
              rw [← hpre2, List.getLast?_append, hg, Option.or_some] at hy
              rw [hg, hy]
            rw [hy2, Option.or_some]
            intro z hz
            injection hz with hz'
            rw [← hz']
            exact hyw

/-- Claim C8: `IOC(HASH, v)` is emitted exactly when `v` is a maximal
run of hexadecimal characters in the refanged text, bounded by non-word
characters or the text boundary, of length exactly 32, 40 or 64; the run
is stored verbatim (same `v`), with no further validation. -/
theorem claim_C8 (t v : List Char) :
    IOC.mk .hash v ∈ validate_iocs t ↔
      t ≠ [] ∧ HashOcc none (refangText t) v := by
  rw [mem_hash_iff]
  exact and_congr_right fun _ =>
    hash_iter_iff (refangText t).length none (refangText t) le_rfl v

/-- Witness for C8: the MD5-length run in a sample text is an occurrence
in the sense of `HashOcc`. -/
theorem claim_C8_witness :
    ("Hash d41d8cd98f00b204e9800998ecf8427e detected".toList ≠ []) ∧
      HashOcc none (refangText ("Hash d41d8cd98f00b204e9800998ecf8427e detected".toList))
        ("d41d8cd98f00b204e9800998ecf8427e".toList) :=
  (claim_C8 ("Hash d41d8cd98f00b204e9800998ecf8427e detected".toList)
    ("d41d8cd98f00b204e9800998ecf8427e".toList)).mp (by decide)
